/-
  Verification development for `to_atom.py`, a one-file converter that maps a
  JSON document of wildlife observations to an Atom feed.

  The embedding follows the source:
  * Python strings are Lean `String`s; character-level reasoning happens on
    `String.data : List Char`.
  * `str.replace` (replace all non-overlapping occurrences, leftmost first)
    is embedded as `pyReplace`.
  * `urllib.parse.quote` is embedded as `pyQuote` (UTF-8 percent-encoding,
    default safe set plus `/`).
  * The `xml.etree.ElementTree` element tree is the inductive `XElem`;
    the serialization pipeline `ET.tostring` → `minidom.parseString` →
    `toprettyxml(indent="  ")` is `toprettyxml`, and `format_xml` /
    `json_to_atom` mirror the functions of the same names in the source.
  * Optional JSON fields are `Option`s (`none` models an absent field), and
    values the program only ever interpolates into strings (ids, coordinate
    numbers) are carried as their Python `str` rendering.
-/
import Mathlib

set_option maxHeartbeats 1000000

/-! ### Python string primitives -/

/-- Helper for `pyReplaceL`: scans the character list left to right.  With
skip counter `n + 1` the scanner is inside an already-replaced match and drops
the character; at `0` it tests for the pattern `p` at the current position and
emits the replacement `r` on a match.  This is Python `str.replace`, which
replaces all non-overlapping occurrences, leftmost first. -/
def repAux (p r : List Char) : Nat → List Char → List Char
  | _, [] => []
  | Nat.succ n, _ :: s => repAux p r n s
  | 0, c :: s =>
    if p.isPrefixOf (c :: s) then r ++ repAux p r (p.length - 1) s
    else c :: repAux p r 0 s

/-- Python `s.replace(p, r)` on character lists (for non-empty `p`, the only
case the program exercises). -/
def pyReplaceL (p r s : List Char) : List Char := repAux p r 0 s

/-- Python `s.replace(p, r)` on strings. -/
def pyReplace (s p r : String) : String := String.mk (pyReplaceL p.data r.data s.data)

/-- Does `p` occur as a contiguous substring of `s`? -/
def containsSub (p : List Char) : List Char → Bool
  | [] => p.isPrefixOf []
  | c :: s => p.isPrefixOf (c :: s) || containsSub p s

/-! ### `urllib.parse.quote` -/

/-- UTF-8 encoding of one code point, as byte values. -/
def utf8Bytes (c : Char) : List Nat :=
  let n := c.toNat
  if n < 128 then [n]
  else if n < 2048 then [192 + n / 64, 128 + n % 64]
  else if n < 65536 then [224 + n / 4096, 128 + n / 64 % 64, 128 + n % 64]
  else [240 + n / 262144, 128 + n / 4096 % 64, 128 + n / 64 % 64, 128 + n % 64]

/-- Bytes `urllib.parse.quote` leaves unencoded: ASCII letters, digits,
`_`, `.`, `-`, `~`, and the default `safe='/'`. -/
def quoteSafe (b : Nat) : Bool :=
  (48 ≤ b && b ≤ 57) || (65 ≤ b && b ≤ 90) || (97 ≤ b && b ≤ 122) ||
    b == 95 || b == 46 || b == 45 || b == 126 || b == 47

/-- Upper-case hexadecimal digit, as used by `quote`'s `%XX` escapes. -/
def hexUpper (n : Nat) : Char := if n < 10 then Char.ofNat (48 + n) else Char.ofNat (55 + n)

/-- The `%XX` escape of one byte. -/
def pctByte (b : Nat) : List Char := ['%', hexUpper (b / 16), hexUpper (b % 16)]

/-- `urllib.parse.quote(s)` with its defaults. -/
def pyQuote (s : String) : String :=
  String.mk (((s.data.map utf8Bytes).flatten.map
    (fun b => if quoteSafe b then [Char.ofNat b] else pctByte b)).flatten)

/-! ### The element tree -/

/-- An `xml.etree.ElementTree` element: tag, attributes in insertion order,
optional text, child elements in insertion order. -/
inductive XElem : Type where
  | mk : String → List (String × String) → Option String → List XElem → XElem

def XElem.tag : XElem → String
  | .mk t _ _ _ => t

def XElem.attrs : XElem → List (String × String)
  | .mk _ a _ _ => a

def XElem.text : XElem → Option String
  | .mk _ _ x _ => x

def XElem.children : XElem → List XElem
  | .mk _ _ _ cs => cs

/-- Attribute lookup (first binding wins, as in a Python dict built by
successive `set` calls with distinct keys). -/
def XElem.attr (e : XElem) (a : String) : Option String :=
  (e.attrs.find? (fun pr => pr.fst == a)).map Prod.snd

/-! ### The input data model (section 3 of the spec / the JSON the program
reads) -/

/-- `photo` object of a photo-wrapper record.  `none` models an absent (or
`null`) field. -/
structure Photo where
  url : Option String
  attribution : Option String

/-- One element of `observation_photos`. -/
structure ObservationPhoto where
  photo : Option Photo

/-- Per the input schema, `geojson.coordinates` is the 2-element sequence
`[longitude, latitude]`; the pair stores `(longitude, latitude)` in that
GeoJSON order.  The numbers are carried as their Python `str` rendering,
the only way the program consumes them. -/
structure GeoJson where
  coordinates : Option (String × String)

/-- One observation record; every field is optional. -/
structure Observation where
  id : Option String
  time_observed_at : Option String
  place_guess : Option String
  geojson : Option GeoJson
  observation_photos : Option (List ObservationPhoto)

/-- The input document: a mapping whose `results` key (when present) holds
the record list. -/
structure Document where
  results : Option (List Observation)

/-! ### `json_to_atom` (to_atom.py lines 19-133) -/

/-- Line 62: `f"https://www.inaturalist.org/observations/{obs_id}"` with
`obs_id = item.get("id")`; Python renders an absent id (`None`) as the
literal string `None`. -/
def inaturalist_url (item : Observation) : String :=
  "https://www.inaturalist.org/observations/" ++
    (match item.id with
     | some v => v
     | none => "None")

/-- Lines 92-96 and 110-114: `.replace("square.jpeg", "large.jpeg")`. -/
def photoUrlRewrite (u : String) : String := pyReplace u "square.jpeg" "large.jpeg"

/-- Lines 80-84: the Google Maps paragraph, added when `item.get("geojson")`
and `item.get("geojson").get("coordinates")` are truthy; note
`lat, lon = coords[1], coords[0]`. -/
def coordsHtml (item : Observation) : String :=
  match item.geojson with
  | none => ""
  | some gj =>
    match gj.coordinates with
    | none => ""
    | some co =>
      "<p>Coordinates: <a href=\"https://www.google.com/maps?q=" ++ co.snd ++ "," ++
        co.fst ++ "\" target=\"_blank\">" ++ co.snd ++ ", " ++ co.fst ++ "</a></p>"

/-- Lines 89-101: the first pass over `observation_photos`, appending one
`<div>` block per photo whose `photo` and `photo.url` are truthy. -/
def photosHtml : List ObservationPhoto → String
  | [] => ""
  | pd :: rest =>
    (match pd.photo with
     | none => ""
     | some p =>
       match p.url with
       | none => ""
       | some u =>
         if u = "" then ""
         else "<div><img src=\"" ++ photoUrlRewrite u ++ "\" alt=\"Observation photo\"/>" ++
           "<br/>" ++ p.attribution.getD "" ++ "</div>") ++ photosHtml rest

/-- Lines 77-104: `html_content`. -/
def html_content (item : Observation) : String :=
  ("<div><p>Location: " ++ item.place_guess.getD "Unknown" ++ "</p>" ++ coordsHtml item ++
    (match item.observation_photos with
     | none => ""
     | some ps => if ps.isEmpty then "" else "<p>Photos:</p>" ++ photosHtml ps)) ++ "</div>"

/-- Lines 106-119: the second, independent pass over `observation_photos`
building the `rel="enclosure"` links (same truthiness tests, same rewrite). -/
def enclosureLinks (item : Observation) : List XElem :=
  match item.observation_photos with
  | none => []
  | some ps =>
    if ps.isEmpty then []
    else ps.filterMap (fun pd =>
      match pd.photo with
      | none => none
      | some p =>
        match p.url with
        | none => none
        | some u =>
          if u = "" then none
          else some (XElem.mk "link"
            [("rel", "enclosure"), ("href", photoUrlRewrite u), ("type", "image/jpeg")]
            none []))

/-- Lines 57-130: one `entry` element per record, children in construction
order: id, title, updated, content, enclosure links, alternate link, and the
category (only when `place_guess` is truthy). -/
def entryElem (item : Observation) : XElem :=
  XElem.mk "entry" [] none
    ([XElem.mk "id" [] (some (inaturalist_url item)) [],
      XElem.mk "title" []
        (some ("Brown Pelican at " ++ item.place_guess.getD "Unknown location")) [],
      XElem.mk "updated" [] item.time_observed_at [],
      XElem.mk "content" [("type", "html")] (some (html_content item)) []]
      ++ enclosureLinks item
      ++ [XElem.mk "link" [("rel", "alternate"), ("href", inaturalist_url item)] none []]
      ++ (match item.place_guess with
          | none => []
          | some pg =>
            if pg = "" then []
            else [XElem.mk "category" [("term", pyQuote pg), ("label", pg)] none []]))

/-- Lines 41-58: the feed root, metadata children, then the entries in input
order (`for item in json_data.get("results", [])`). -/
def feedElem (json_data : Document)
    (feed_title feed_id author_name feed_updated : String) : XElem :=
  XElem.mk "feed" [("xmlns", "http://www.w3.org/2005/Atom")] none
    ([XElem.mk "title" [] (some feed_title) [],
      XElem.mk "id" [] (some feed_id) [],
      XElem.mk "updated" [] (some feed_updated) [],
      XElem.mk "author" [] none [XElem.mk "name" [] (some author_name) []]]
      ++ (json_data.results.getD []).map entryElem)

/-! ### `format_xml` (to_atom.py lines 10-16): the pipeline
`ET.tostring` → `minidom.parseString` → `toprettyxml(indent="  ")` →
`.replace(...)`.  Round-tripping through `tostring`/`parseString` is the
identity on the tree (both escape and unescape the same entities), so the
serialization is `minidom`'s `writexml` with `addindent="  "`, `newl="\n"`.
An element's DOM node has a text child exactly when its `text` is truthy
(non-`None`, non-empty: `ElementTree` serializes falsy text as no text). -/

/-- `minidom._write_data`: escape `&`, `<`, `"`, `>`, in this order, in text
and attribute values. -/
def escapeData (s : String) : String :=
  pyReplace (pyReplace (pyReplace (pyReplace s "&" "&amp;") "<" "&lt;") "\"" "&quot;")
    ">" "&gt;"

/-- Attribute rendering of `minidom.Element.writexml`: document order,
` name="escaped value"` for each attribute. -/
def attrsStr : List (String × String) → String
  | [] => ""
  | pr :: rest => " " ++ pr.fst ++ "=\"" ++ escapeData pr.snd ++ "\"" ++ attrsStr rest

mutual
/-- `minidom.Element.writexml` with `addindent="  "`, `newl="\n"`, as the
list of output lines: an element whose only child is a (truthy) text node is
written inline; an element with no children and no truthy text is
self-closed; otherwise the children go on their own lines, indented two more
spaces, between the start tag line and the end tag line. -/
def linesOf : XElem → String → List String
  | XElem.mk tag attrs text children, ind =>
    match children with
    | [] =>
      match text with
      | some t =>
        if t = "" then [ind ++ "<" ++ tag ++ attrsStr attrs ++ "/>"]
        else
          [ind ++ "<" ++ tag ++ attrsStr attrs ++ ">" ++ escapeData t ++ "</" ++ tag ++ ">"]
      | none => [ind ++ "<" ++ tag ++ attrsStr attrs ++ "/>"]
    | c :: cs =>
      [ind ++ "<" ++ tag ++ attrsStr attrs ++ ">"]
        ++ (match text with
            | some t => if t = "" then [] else [escapeData (ind ++ "  " ++ t)]
            | none => [])
        ++ linesOfList (c :: cs) (ind ++ "  ")
        ++ [ind ++ "</" ++ tag ++ ">"]

def linesOfList : List XElem → String → List String
  | [], _ => []
  | e :: es, ind => linesOf e ind ++ linesOfList es ind
end

/-- Each written line is terminated by `newl = "\n"`. -/
def joinLines : List String → String
  | [] => ""
  | l :: ls => l ++ "\n" ++ joinLines ls

/-- `minidom.Document.toprettyxml(indent="  ")`: the default declaration
line (no encoding argument, hence `<?xml version="1.0" ?>`), then the root
element's lines. -/
def toprettyxml (e : XElem) : String :=
  "<?xml version=\"1.0\" ?>" ++ "\n" ++ joinLines (linesOf e "")

/-- Lines 10-16: `format_xml` = pretty-print, then rewrite the declaration
by a literal `str.replace`. -/
def format_xml (element : XElem) : String :=
  pyReplace (toprettyxml element) "<?xml version=\"1.0\" ?>"
    "<?xml version=\"1.0\" encoding=\"utf-8\"?>"

/-- Lines 19-133: `json_to_atom`.  The impure clock read
`datetime.datetime.utcnow().strftime("%Y-%m-%dT%H:%M:%SZ")` of line 49 is the
explicit parameter `now`; it is consulted only when `feed_updated` is
`None`. -/
def json_to_atom (json_data : Document) (feed_title feed_id author_name : String)
    (feed_updated : Option String) (now : String) : String :=
  format_xml (feedElem json_data feed_title feed_id author_name (feed_updated.getD now))

/-! ### Specification-side helpers -/

/-- The rewritten URLs of the photos both passes keep (`photo` truthy and
`photo.url` truthy), in input order. -/
def keptUrlsL (ps : List ObservationPhoto) : List String :=
  ps.filterMap (fun pd =>
    match pd.photo with
    | none => none
    | some p =>
      match p.url with
      | none => none
      | some u => if u = "" then none else some (photoUrlRewrite u))

/-- The kept rewritten photo URLs of one record. -/
def keptUrls (item : Observation) : List String :=
  match item.observation_photos with
  | none => []
  | some ps => keptUrlsL ps

/-- The literal prefix of every embedded `img` tag in the content HTML. -/
def imgPat : List Char := "<img src=\"".data

/-- Helper for `imgSrcs`, with the same skip-counter scheme as `repAux`. -/
def imgSrcsAux : Nat → List Char → List (List Char)
  | _, [] => []
  | Nat.succ n, _ :: s => imgSrcsAux n s
  | 0, c :: s =>
    if imgPat.isPrefixOf (c :: s) then
      ((c :: s).drop imgPat.length).takeWhile (fun a => a != '"') ::
        imgSrcsAux (imgPat.length - 1) s
    else imgSrcsAux 0 s

/-- The `src` values of the `<img ...>` tags embedded in an HTML string: the
characters following each occurrence of `<img src="`, up to the closing
quote. -/
def imgSrcs (s : List Char) : List (List Char) := imgSrcsAux 0 s

/-- `startFree p a`: no occurrence of `p` can begin inside `a`, whatever
text follows `a`. -/
def startFree (p : List Char) : List Char → Bool
  | [] => true
  | c :: s => (!(List.isPrefixOf (c :: s) p) && !(p.isPrefixOf (c :: s))) && startFree p s

/-- The strings of this photo keep the textual img-src extraction
unambiguous: the rewritten URL contains no `<` and no `"`, the attribution
contains no `<`. -/
def benignPhoto (pd : ObservationPhoto) : Bool :=
  match pd.photo with
  | none => true
  | some p =>
    (match p.url with
     | none => true
     | some u =>
       !((photoUrlRewrite u).data.contains '<') && !((photoUrlRewrite u).data.contains '"'))
    && !((p.attribution.getD "").data.contains '<')

/-- No user-controlled string interpolated into the content HTML introduces
a stray `<` (nor, for photo URLs, a stray `"`). -/
def benign (item : Observation) : Bool :=
  !((item.place_guess.getD "Unknown").data.contains '<')
  && (match item.geojson with
      | none => true
      | some gj =>
        match gj.coordinates with
        | none => true
        | some co => !(co.fst.data.contains '<') && !(co.snd.data.contains '<'))
  && (item.observation_photos.getD []).all benignPhoto

/-- A tag or attribute name is non-empty and free of `<` and `?`. -/
def nameOk (s : String) : Bool :=
  !(s.data.isEmpty) && !(s.data.contains '<') && !(s.data.contains '?')

mutual
/-- Every tag and attribute name in the tree satisfies `nameOk` (attribute
values and text are arbitrary: the serializer escapes them). -/
def elemOk : XElem → Bool
  | XElem.mk tag attrs _ children =>
    nameOk tag && attrs.all (fun pr => nameOk pr.fst) && elemsOk children

def elemsOk : List XElem → Bool
  | [] => true
  | e :: es => elemOk e && elemsOk es
end

/-- The two-character pattern `<?` opening an XML declaration. -/
def ltqm : List Char := ['<', '?']

/-- `declFree s`: `s` contains no `<?` substring and does not end in `<`
(whence appending it to other `declFree` strings never forms `<?`). -/
def declFree (s : String) : Bool :=
  !(containsSub ltqm s.data) && !(s.data.getLast? == some '<')

/-- A Scenario-4-style record: one photo whose URL ends in `square.jpeg`. -/
def sampleObs : Observation :=
  Observation.mk none none none none
    (some [ObservationPhoto.mk (some (Photo.mk (some "https://s/square.jpeg")
      (some "(c) A")))])

/-- A record with one photo whose `photo.url` is present but empty (an empty
string is falsy in Python, so the program skips it). -/
def emptyUrlObs : Observation :=
  Observation.mk none none none none
    (some [ObservationPhoto.mk (some (Photo.mk (some "") none))])

/-! ## Theorems -/

/-! ### Facts about `pyReplace` -/

theorem repAux_shift (p r : List Char) (s : List Char) :
    ∀ n, repAux p r n s = pyReplaceL p r (s.drop n) := by
  induction s with
  | nil => intro n; cases n <;> rfl
  | cons c s ih =>
    intro n
    cases n with
    | zero => rfl
    | succ n => simpa [repAux, pyReplaceL] using ih n

theorem pyReplaceL_nil (p r : List Char) : pyReplaceL p r [] = [] := rfl

theorem pyReplaceL_cons_pos (p r : List Char) (c : Char) (s : List Char)
    (hp : p ≠ []) (h : p.isPrefixOf (c :: s)) :
    pyReplaceL p r (c :: s) = r ++ pyReplaceL p r ((c :: s).drop p.length) := by
  cases p with
  | nil => exact absurd rfl hp
  | cons a p' =>
    show repAux (a :: p') r 0 (c :: s) = _
    rw [repAux, if_pos h, repAux_shift]
    rfl

theorem pyReplaceL_cons_neg (p r : List Char) (c : Char) (s : List Char)
    (h : ¬ p.isPrefixOf (c :: s)) :
    pyReplaceL p r (c :: s) = c :: pyReplaceL p r s := by
  show repAux p r 0 (c :: s) = _
  rw [repAux, if_neg h]
  rfl

theorem pyReplaceL_append_pat (p r t : List Char) (hp : p ≠ []) :
    pyReplaceL p r (p ++ t) = r ++ pyReplaceL p r t := by
  cases p with
  | nil => exact absurd rfl hp
  | cons a p' =>
    rw [show (a :: p') ++ t = a :: (p' ++ t) from rfl,
      pyReplaceL_cons_pos (a :: p') r a (p' ++ t) hp
        (List.isPrefixOf_iff_prefix.2 (List.prefix_append (a :: p') t))]
    congr 1
    exact congrArg (pyReplaceL (a :: p') r) (List.drop_left (a :: p') t)

theorem containsSub_of_prefix_pat {p q s : List Char} (hq : q <+: p)
    (h : containsSub p s = true) : containsSub q s = true := by
  induction s with
  | nil =>
    simp only [containsSub] at h ⊢
    rw [List.isPrefixOf_iff_prefix] at h ⊢
    exact hq.trans h
  | cons c s ih =>
    simp only [containsSub, Bool.or_eq_true] at h ⊢
    rcases h with h | h
    · exact Or.inl (List.isPrefixOf_iff_prefix.2
        (hq.trans (List.isPrefixOf_iff_prefix.1 h)))
    · exact Or.inr (ih h)

theorem subset_of_containsSub {p s : List Char} (h : containsSub p s = true) :
    ∀ a ∈ p, a ∈ s := by
  induction s with
  | nil =>
    simp only [containsSub] at h
    rw [List.isPrefixOf_iff_prefix, List.prefix_nil] at h
    subst h
    intro a ha
    exact absurd ha (List.not_mem_nil a)
  | cons c s ih =>
    simp only [containsSub, Bool.or_eq_true] at h
    intro a ha
    rcases h with h | h
    · exact (List.isPrefixOf_iff_prefix.1 h).subset ha
    · exact List.mem_cons_of_mem c (ih h a ha)

theorem pyReplaceL_of_not_containsSub {p r s : List Char}
    (h : containsSub p s = false) : pyReplaceL p r s = s := by
  induction s with
  | nil => rfl
  | cons c s ih =>
    simp only [containsSub, Bool.or_eq_false_iff] at h
    rw [pyReplaceL_cons_neg p r c s (by simp [h.1]), ih h.2]

theorem mem_pyReplaceL (p r : List Char) (hp : p ≠ []) :
    ∀ (s : List Char) (a : Char), a ∈ pyReplaceL p r s → a ∈ r ∨ a ∈ s
  | [], a, h => absurd h (by simp [pyReplaceL, repAux])
  | c :: s, a, h => by
    by_cases hpre : p.isPrefixOf (c :: s)
    · rw [pyReplaceL_cons_pos p r c s hp hpre] at h
      rcases List.mem_append.1 h with h1 | h2
      · exact Or.inl h1
      · rcases mem_pyReplaceL p r hp ((c :: s).drop p.length) a h2 with h3 | h4
        · exact Or.inl h3
        · exact Or.inr (List.mem_of_mem_drop h4)
    · rw [pyReplaceL_cons_neg p r c s hpre] at h
      rcases List.mem_cons.1 h with h1 | h2
      · exact Or.inr (h1 ▸ List.mem_cons_self c s)
      · rcases mem_pyReplaceL p r hp s a h2 with h3 | h4
        · exact Or.inl h3
        · exact Or.inr (List.mem_cons_of_mem c h4)
termination_by s => s.length
decreasing_by
  · have hlen : 0 < p.length := List.length_pos.2 hp
    simp only [List.length_drop, List.length_cons]
    omega
  · simp

/-- A single-character pattern is fully eliminated by one replacement pass
(provided the replacement avoids that character). -/
theorem single_char_removed (c : Char) (r : List Char) (hc : c ∉ r) :
    ∀ s : List Char, c ∉ pyReplaceL [c] r s
  | [] => by simp [pyReplaceL, repAux]
  | a :: s => by
    by_cases hpre : List.isPrefixOf [c] (a :: s)
    · rw [pyReplaceL_cons_pos [c] r a s (by simp) hpre]
      intro hm
      rcases List.mem_append.1 hm with h1 | h2
      · exact hc h1
      · exact single_char_removed c r hc s h2
    · have hne : a ≠ c := by
        intro he
        exact hpre (by simp [List.isPrefixOf, he])
      rw [pyReplaceL_cons_neg [c] r a s hpre]
      intro hm
      rcases List.mem_cons.1 hm with h1 | h2
      · exact hne h1.symm
      · exact single_char_removed c r hc s h2
termination_by s => s.length
decreasing_by
  · simp
  · simp

theorem containsSub_append_left_free (ph : Char) (pt u t : List Char)
    (hu : ∀ a ∈ u, a ≠ ph) (ht : containsSub (ph :: pt) t = false) :
    containsSub (ph :: pt) (u ++ t) = false := by
  induction u with
  | nil => simpa using ht
  | cons a u ih =>
    have ha : (ph == a) = false :=
      beq_eq_false_iff_ne.2 (Ne.symm (hu a (List.mem_cons_self a u)))
    simp only [List.cons_append, containsSub, Bool.or_eq_false_iff, List.isPrefixOf, ha,
      Bool.false_and]
    exact ⟨trivial, ih (fun b hb => hu b (List.mem_cons_of_mem a hb))⟩

/-- If no character of the replacement `rh :: rt` starts the pattern and a
(non-empty) suffix `q` of the pattern does not start at the head of `t`, then
`q` does not start at the head of the replaced `t` either. -/
theorem not_isPrefixOf_pyReplaceL (p : List Char) (rh : Char) (rt : List Char)
    (hp : p ≠ []) (h2 : ∀ a ∈ p, a ≠ rh) :
    ∀ (t q : List Char), q <:+ p → q ≠ [] → ¬ q.isPrefixOf t →
      ¬ q.isPrefixOf (pyReplaceL p (rh :: rt) t)
  | [], q, _, hq, _ => by
    rw [pyReplaceL_nil]
    cases q with
    | nil => exact absurd rfl hq
    | cons b q' => simp [List.isPrefixOf]
  | c :: t, q, hs, hq, hpre => by
    by_cases hm : p.isPrefixOf (c :: t)
    · rw [pyReplaceL_cons_pos p (rh :: rt) c t hp hm]
      cases q with
      | nil => exact absurd rfl hq
      | cons b q' =>
        have hb : b ∈ p := hs.subset (List.mem_cons_self b q')
        have hbrh : (b == rh) = false := beq_eq_false_iff_ne.2 (h2 b hb)
        simp [List.cons_append, List.isPrefixOf, hbrh]
    · rw [pyReplaceL_cons_neg p (rh :: rt) c t hm]
      cases q with
      | nil => exact absurd rfl hq
      | cons b q' =>
        by_cases hbc : b = c
        · subst hbc
          have hq' : ¬ q'.isPrefixOf t := by
            intro hcon
            exact hpre (by simp [List.isPrefixOf, hcon])
          cases q' with
          | nil => exact absurd (by simp [List.isPrefixOf]) hq'
          | cons b2 q2 =>
            have hs' : (b2 :: q2) <:+ p := (List.suffix_cons b (b2 :: q2)).trans hs
            have hrec := not_isPrefixOf_pyReplaceL p rh rt hp h2 t (b2 :: q2) hs'
              (by simp) hq'
            intro hcon
            exact hrec (by
              simp only [List.isPrefixOf, Bool.and_eq_true, beq_iff_eq] at hcon
              exact hcon.2)
        · have hbc' : (b == c) = false := beq_eq_false_iff_ne.2 hbc
          simp [List.isPrefixOf, hbc']

/-- After one full replacement pass, the pattern no longer occurs, provided
the pattern's first character avoids the replacement and the replacement's
first character avoids the pattern. -/
theorem containsSub_pyReplaceL (ph rh : Char) (pt rt : List Char)
    (h1 : ∀ a ∈ rh :: rt, a ≠ ph) (h2 : ∀ a ∈ ph :: pt, a ≠ rh) :
    ∀ s, containsSub (ph :: pt) (pyReplaceL (ph :: pt) (rh :: rt) s) = false
  | [] => by simp [pyReplaceL_nil, containsSub, List.isPrefixOf]
  | c :: s => by
    by_cases hm : (ph :: pt).isPrefixOf (c :: s)
    · rw [pyReplaceL_cons_pos _ _ c s (by simp) hm]
      exact containsSub_append_left_free ph pt (rh :: rt) _ h1
        (containsSub_pyReplaceL ph rh pt rt h1 h2 ((c :: s).drop (ph :: pt).length))
    · rw [pyReplaceL_cons_neg _ _ c s hm]
      have hrec := containsSub_pyReplaceL ph rh pt rt h1 h2 s
      simp only [containsSub, Bool.or_eq_false_iff]
      refine ⟨?_, hrec⟩
      by_cases hc : ph = c
      · subst hc
        have hpt : ¬ pt.isPrefixOf s := by
          intro hcon
          exact hm (by simp [List.isPrefixOf, hcon])
        cases pt with
        | nil => exact absurd (by simp [List.isPrefixOf]) hpt
        | cons b2 q2 =>
          have hnp := not_isPrefixOf_pyReplaceL (ph :: b2 :: q2) rh rt (by simp) h2 s
            (b2 :: q2) (List.suffix_cons ph (b2 :: q2)) (by simp) hpt
          simp only [List.isPrefixOf, beq_self_eq_true, Bool.true_and]
          exact Bool.eq_false_iff.2 hnp
      · have hc' : (ph == c) = false := beq_eq_false_iff_ne.2 hc
        simp [List.isPrefixOf, hc']
termination_by s => s.length
decreasing_by
  · simp only [List.length_drop, List.length_cons]
    omega
  · simp

/-- Replace-all is idempotent whenever pattern and replacement exclude each
other's first character. -/
theorem pyReplaceL_idem (ph rh : Char) (pt rt : List Char)
    (h1 : ∀ a ∈ rh :: rt, a ≠ ph) (h2 : ∀ a ∈ ph :: pt, a ≠ rh) (s : List Char) :
    pyReplaceL (ph :: pt) (rh :: rt) (pyReplaceL (ph :: pt) (rh :: rt) s) =
      pyReplaceL (ph :: pt) (rh :: rt) s :=
  pyReplaceL_of_not_containsSub (containsSub_pyReplaceL ph rh pt rt h1 h2 s)

/-- **C6.**  The photo-URL rewrite of `to_atom.py` (lines 92-96 and 110-114)
is idempotent: for every input string, applying the replace-all substitution
of `square.jpeg` by `large.jpeg` twice yields the same string as applying it
once. -/
theorem claim_C6_photo_rewrite_idempotent (s : String) :
    photoUrlRewrite (photoUrlRewrite s) = photoUrlRewrite s := by
  show pyReplace (pyReplace s "square.jpeg" "large.jpeg") "square.jpeg" "large.jpeg" = _
  unfold pyReplace
  congr 1
  exact pyReplaceL_idem 's' 'l' "quare.jpeg".data "arge.jpeg".data
    (by decide) (by decide) s.data

/-! ### Shape of the generated elements -/

theorem mem_enclosureLinks {item : Observation} {x : XElem}
    (hx : x ∈ enclosureLinks item) :
    ∃ u, x = XElem.mk "link" [("rel", "enclosure"), ("href", u), ("type", "image/jpeg")]
      none [] := by
  unfold enclosureLinks at hx
  split at hx
  · exact absurd hx (List.not_mem_nil x)
  · split at hx
    · exact absurd hx (List.not_mem_nil x)
    · rcases List.mem_filterMap.1 hx with ⟨pd, _, hpd⟩
      split at hpd
      · exact Option.noConfusion hpd
      · split at hpd
        · exact Option.noConfusion hpd
        · split at hpd
          · exact Option.noConfusion hpd
          · exact ⟨_, (Option.some.inj hpd).symm⟩

theorem filter_enclosureLinks_eq_nil (item : Observation) (q : XElem → Bool)
    (hq : ∀ u, q (XElem.mk "link"
      [("rel", "enclosure"), ("href", u), ("type", "image/jpeg")] none []) = false) :
    (enclosureLinks item).filter q = [] := by
  rw [List.filter_eq_nil_iff]
  intro x hx
  rcases mem_enclosureLinks hx with ⟨u, rfl⟩
  simp [hq u]

/-- **C1.**  The output feed has exactly one `entry` element per record of
`results`, in input order (no filtering, no deduplication), and zero entries
when `results` is absent; the serialized output is exactly the serialization
of this tree. -/
theorem claim_C1_one_entry_per_record (json_data : Document)
    (ft fi an fu : String) (fuOpt : Option String) (now : String) :
    (feedElem json_data ft fi an fu).children.filter (fun c => c.tag == "entry") =
      (json_data.results.getD []).map entryElem ∧
    ((feedElem json_data ft fi an fu).children.filter
        (fun c => c.tag == "entry")).length = (json_data.results.getD []).length ∧
    (json_data.results = none →
      (feedElem json_data ft fi an fu).children.filter (fun c => c.tag == "entry") = []) ∧
    json_to_atom json_data ft fi an fuOpt now =
      format_xml (feedElem json_data ft fi an (fuOpt.getD now)) := by
  have hfilter : (feedElem json_data ft fi an fu).children.filter
      (fun c => c.tag == "entry") = (json_data.results.getD []).map entryElem := by
    simp only [feedElem, XElem.children, List.filter_append]
    rw [show List.filter (fun c => c.tag == "entry")
          (List.map entryElem (json_data.results.getD [])) =
        List.map entryElem (json_data.results.getD []) from
      List.filter_eq_self.2 (fun x hx => by
        rcases List.mem_map.1 hx with ⟨r, _, rfl⟩
        simp [entryElem, XElem.tag])]
    simp [XElem.tag]
  refine ⟨hfilter, ?_, ?_, rfl⟩
  · rw [hfilter, List.length_map]
  · intro hnone
    rw [hfilter, hnone]
    rfl

/-- **C2.**  Every entry's `id` element text is exactly
`https://www.inaturalist.org/observations/{id}` with the record's `id` in its
natural string form (`None` when the field is absent), and the entry carries
exactly one `link` with `rel="alternate"` whose `href` is that same URL. -/
theorem claim_C2_entry_id_and_alternate (item : Observation) :
    (entryElem item).children.filter (fun c => c.tag == "id") =
      [XElem.mk "id" []
        (some ("https://www.inaturalist.org/observations/" ++
          (match item.id with
           | some v => v
           | none => "None"))) []] ∧
    (entryElem item).children.filter
        (fun c => c.tag == "link" && c.attr "rel" == some "alternate") =
      [XElem.mk "link" [("rel", "alternate"), ("href", inaturalist_url item)] none []] := by
  constructor
  · simp only [entryElem, XElem.children, List.filter_append]
    rw [filter_enclosureLinks_eq_nil item _ (fun u => by simp [XElem.tag])]
    cases item.place_guess with
    | none => simp [XElem.tag, inaturalist_url]
    | some pg =>
      by_cases hpg : pg = "" <;> simp [hpg, XElem.tag, inaturalist_url]
  · simp only [entryElem, XElem.children, List.filter_append]
    rw [filter_enclosureLinks_eq_nil item _ (fun u => by
      simp [XElem.tag, XElem.attr, XElem.attrs, List.find?])]
    cases item.place_guess with
    | none => simp [XElem.tag, XElem.attr, XElem.attrs, List.find?]
    | some pg =>
      by_cases hpg : pg = "" <;>
        simp [hpg, XElem.tag, XElem.attr, XElem.attrs, List.find?]

/-- **C3.**  Every entry's title is `Brown Pelican at {place}` where
`{place}` is `place_guess` when present and the literal
`Unknown location` otherwise. -/
theorem claim_C3_title (item : Observation) :
    (entryElem item).children.filter (fun c => c.tag == "title") =
      [XElem.mk "title" []
        (some ("Brown Pelican at " ++
          (match item.place_guess with
           | some pg => pg
           | none => "Unknown location"))) []] ∧
    (item.place_guess = none →
      (entryElem item).children.filter (fun c => c.tag == "title") =
        [XElem.mk "title" [] (some "Brown Pelican at Unknown location") []]) := by
  have h : ∀ pgv : Option String, pgv = item.place_guess →
      (entryElem item).children.filter (fun c => c.tag == "title") =
        [XElem.mk "title" []
          (some ("Brown Pelican at " ++
            (match item.place_guess with
             | some pg => pg
             | none => "Unknown location"))) []] := by
    intro pgv hpg
    simp only [entryElem, XElem.children, List.filter_append]
    rw [filter_enclosureLinks_eq_nil item _ (fun u => by simp [XElem.tag])]
    cases hc : item.place_guess with
    | none => simp [hc, XElem.tag]
    | some pg =>
      by_cases hpge : pg = "" <;> simp [hc, hpge, XElem.tag]
  refine ⟨h item.place_guess rfl, fun hnone => ?_⟩
  rw [h item.place_guess rfl, hnone]
  rfl

/-- **C8.**  Every entry's `updated` element carries the record's
`time_observed_at` verbatim; an absent value yields an empty (null) text
node. -/
theorem claim_C8_updated_verbatim (item : Observation) :
    (entryElem item).children.filter (fun c => c.tag == "updated") =
      [XElem.mk "updated" [] item.time_observed_at []] ∧
    (item.time_observed_at = none →
      (entryElem item).children.filter (fun c => c.tag == "updated") =
        [XElem.mk "updated" [] none []]) := by
  have h : (entryElem item).children.filter (fun c => c.tag == "updated") =
      [XElem.mk "updated" [] item.time_observed_at []] := by
    simp only [entryElem, XElem.children, List.filter_append]
    rw [filter_enclosureLinks_eq_nil item _ (fun u => by simp [XElem.tag])]
    cases item.place_guess with
    | none => simp [XElem.tag]
    | some pg =>
      by_cases hpg : pg = "" <;> simp [hpg, XElem.tag]
  exact ⟨h, fun hnone => by rw [h, hnone]⟩

/-- **C7.**  An entry carries a `category` element exactly when
`place_guess` is present and non-empty, with `term` the percent-encoded and
`label` the raw `place_guess`; a record missing `place_guess` produces no
`category`. -/
theorem claim_C7_category (item : Observation) :
    (entryElem item).children.filter (fun c => c.tag == "category") =
      (match item.place_guess with
       | none => []
       | some pg =>
         if pg = "" then []
         else [XElem.mk "category" [("term", pyQuote pg), ("label", pg)] none []]) := by
  simp only [entryElem, XElem.children, List.filter_append]
  rw [filter_enclosureLinks_eq_nil item _ (fun u => by simp [XElem.tag])]
  cases item.place_guess with
  | none => simp [XElem.tag]
  | some pg =>
    by_cases hpg : pg = "" <;> simp [hpg, XElem.tag]

/-- **C10.**  With a supplied (non-null) `feed_updated`, the transformer is
deterministic and independent of the system clock: the `now` parameter (the
modelled clock read) does not influence the output. -/
theorem claim_C10_deterministic (json_data : Document)
    (ft fi an fu now1 now2 : String) :
    json_to_atom json_data ft fi an (some fu) now1 =
      json_to_atom json_data ft fi an (some fu) now2 := rfl

/-- **C4.**  When `geojson.coordinates = (lon, lat)` is present, the content
HTML contains the Google Maps paragraph with the URL
`https://www.google.com/maps?q={lat},{lon}` (latitude first, swapping the
GeoJSON order) and link text `{lat}, {lon}`; the content element carries that
HTML with `type="html"`. -/
theorem claim_C4_maps_link (item : Observation) (gj : GeoJson) (lon lat : String)
    (hg : item.geojson = some gj) (hc : gj.coordinates = some (lon, lat)) :
    (∃ pre post, html_content item =
      pre ++ ("<p>Coordinates: <a href=\"https://www.google.com/maps?q=" ++ lat ++ "," ++
        lon ++ "\" target=\"_blank\">" ++ lat ++ ", " ++ lon ++ "</a></p>") ++ post) ∧
    (entryElem item).children.filter (fun c => c.tag == "content") =
      [XElem.mk "content" [("type", "html")] (some (html_content item)) []] := by
  constructor
  · refine ⟨"<div><p>Location: " ++ item.place_guess.getD "Unknown" ++ "</p>",
      (match item.observation_photos with
       | none => ""
       | some ps => if ps.isEmpty then "" else "<p>Photos:</p>" ++ photosHtml ps) ++
        "</div>", ?_⟩
    unfold html_content coordsHtml
    simp only [hg, hc]
    simp [String.append_assoc]
  · simp only [entryElem, XElem.children, List.filter_append]
    rw [filter_enclosureLinks_eq_nil item _ (fun u => by simp [XElem.tag])]
    cases item.place_guess with
    | none => simp [XElem.tag]
    | some pg =>
      by_cases hpg : pg = "" <;> simp [hpg, XElem.tag]

/-- Witness for C4 at the spec's Scenario 3 record
(`coordinates = [-122.4, 37.8]`). -/
theorem claim_C4_witness :
    (∃ pre post,
      html_content (Observation.mk (some "1") none none
          (some (GeoJson.mk (some ("-122.4", "37.8")))) none) =
        pre ++ ("<p>Coordinates: <a href=\"https://www.google.com/maps?q=" ++ "37.8" ++
          "," ++ "-122.4" ++ "\" target=\"_blank\">" ++ "37.8" ++ ", " ++ "-122.4" ++
          "</a></p>") ++ post) ∧
    (entryElem (Observation.mk (some "1") none none
        (some (GeoJson.mk (some ("-122.4", "37.8")))) none)).children.filter
        (fun c => c.tag == "content") =
      [XElem.mk "content" [("type", "html")]
        (some (html_content (Observation.mk (some "1") none none
          (some (GeoJson.mk (some ("-122.4", "37.8")))) none))) []] :=
  claim_C4_maps_link _ _ "-122.4" "37.8" rfl rfl

/-! ### The img-src extraction -/

theorem not_mem_of_contains_false {l : List Char} {a : Char}
    (h : l.contains a = false) : a ∉ l := by
  intro hm
  rw [List.contains, List.elem_eq_true_of_mem hm] at h
  exact Bool.noConfusion h

theorem imgSrcsAux_shift (s : List Char) :
    ∀ n, imgSrcsAux n s = imgSrcs (s.drop n) := by
  induction s with
  | nil => intro n; cases n <;> rfl
  | cons c s ih =>
    intro n
    cases n with
    | zero => rfl
    | succ n => simpa [imgSrcsAux, imgSrcs] using ih n

theorem imgSrcs_cons_pos (c : Char) (s : List Char) (h : imgPat.isPrefixOf (c :: s)) :
    imgSrcs (c :: s) =
      ((c :: s).drop imgPat.length).takeWhile (fun a => a != '"') ::
        imgSrcs ((c :: s).drop imgPat.length) := by
  show imgSrcsAux 0 (c :: s) = _
  rw [imgSrcsAux, if_pos h, imgSrcsAux_shift]
  rfl

theorem imgSrcs_cons_neg (c : Char) (s : List Char) (h : ¬ imgPat.isPrefixOf (c :: s)) :
    imgSrcs (c :: s) = imgSrcs s := by
  show imgSrcsAux 0 (c :: s) = _
  rw [imgSrcsAux, if_neg h]
  rfl

theorem imgSrcs_append_pat (t : List Char) :
    imgSrcs (imgPat ++ t) = t.takeWhile (fun a => a != '"') :: imgSrcs t := by
  have h : imgPat.isPrefixOf (imgPat ++ t) :=
    List.isPrefixOf_iff_prefix.2 (List.prefix_append imgPat t)
  have e : imgPat ++ t = '<' :: ("img src=\"".data ++ t) := rfl
  rw [e] at h
  rw [e, imgSrcs_cons_pos '<' ("img src=\"".data ++ t) h]
  have e2 : ('<' :: ("img src=\"".data ++ t)).drop imgPat.length = t := by
    rw [← e]
    exact List.drop_left imgPat t
  rw [e2]

theorem startFree_cons {p : List Char} {c : Char} {s : List Char}
    (h : startFree p (c :: s) = true) :
    List.isPrefixOf (c :: s) p = false ∧ p.isPrefixOf (c :: s) = false ∧
      startFree p s = true := by
  have h' : ((!(List.isPrefixOf (c :: s) p) && !(p.isPrefixOf (c :: s))) &&
      startFree p s) = true := h
  simp only [Bool.and_eq_true, Bool.not_eq_true'] at h'
  exact ⟨h'.1.1, h'.1.2, h'.2⟩

theorem startFree_append (p a b : List Char) (ha : startFree p a = true)
    (hb : startFree p b = true) : startFree p (a ++ b) = true := by
  induction a with
  | nil => simpa using hb
  | cons c a ih =>
    rcases startFree_cons ha with ⟨h1, h2, h3⟩
    have h1' : ¬ (c :: a) <+: p := fun hcon => by
      rw [← List.isPrefixOf_iff_prefix] at hcon
      simp [h1] at hcon
    have h2' : ¬ p <+: (c :: a) := fun hcon => by
      rw [← List.isPrefixOf_iff_prefix] at hcon
      simp [h2] at hcon
    have hca : (c :: a) <+: (c :: (a ++ b)) := ⟨b, rfl⟩
    have g1 : List.isPrefixOf (c :: (a ++ b)) p = false := by
      rw [Bool.eq_false_iff]
      intro hcon
      exact h1' (hca.trans (List.isPrefixOf_iff_prefix.1 hcon))
    have g2 : p.isPrefixOf (c :: (a ++ b)) = false := by
      rw [Bool.eq_false_iff]
      intro hcon
      rcases List.prefix_or_prefix_of_prefix (List.isPrefixOf_iff_prefix.1 hcon) hca with
        h | h
      · exact h2' h
      · exact h1' h
    show ((!(List.isPrefixOf (c :: (a ++ b)) p) && !(p.isPrefixOf (c :: (a ++ b)))) &&
      startFree p (a ++ b)) = true
    rw [g1, g2, ih h3]
    rfl

theorem imgSrcs_append_startFree (a b : List Char) (ha : startFree imgPat a = true) :
    imgSrcs (a ++ b) = imgSrcs b := by
  induction a with
  | nil => rfl
  | cons c a ih =>
    rcases startFree_cons ha with ⟨h1, h2, h3⟩
    have h1' : ¬ (c :: a) <+: imgPat := fun hcon => by
      rw [← List.isPrefixOf_iff_prefix] at hcon
      simp [h1] at hcon
    have h2' : ¬ imgPat <+: (c :: a) := fun hcon => by
      rw [← List.isPrefixOf_iff_prefix] at hcon
      simp [h2] at hcon
    have hca : (c :: a) <+: (c :: (a ++ b)) := ⟨b, rfl⟩
    have hnp : ¬ imgPat.isPrefixOf (c :: (a ++ b)) := by
      intro hcon
      rcases List.prefix_or_prefix_of_prefix (List.isPrefixOf_iff_prefix.1 hcon) hca with
        h | h
      · exact h2' h
      · exact h1' h
    show imgSrcs (c :: (a ++ b)) = imgSrcs b
    rw [imgSrcs_cons_neg c (a ++ b) hnp]
    exact ih h3

theorem startFree_of_not_mem (ph : Char) (pt a : List Char) (hm : ph ∉ a) :
    startFree (ph :: pt) a = true := by
  induction a with
  | nil => rfl
  | cons c a ih =>
    have hc : c ≠ ph := fun he => hm (he ▸ List.mem_cons_self c a)
    have h1 : List.isPrefixOf (c :: a) (ph :: pt) = false := by
      simp [List.isPrefixOf, beq_eq_false_iff_ne.2 hc]
    have h2 : (ph :: pt).isPrefixOf (c :: a) = false := by
      simp [List.isPrefixOf, beq_eq_false_iff_ne.2 (Ne.symm hc)]
    show ((!(List.isPrefixOf (c :: a) (ph :: pt)) && !((ph :: pt).isPrefixOf (c :: a))) &&
      startFree (ph :: pt) a) = true
    rw [h1, h2, ih (fun hmem => hm (List.mem_cons_of_mem c hmem))]
    rfl

theorem imgSrcs_photoDiv (u att : String) (tail : List Char)
    (hu1 : '<' ∉ u.data) (hu2 : '"' ∉ u.data) (hatt : '<' ∉ att.data) :
    imgSrcs (("<div><img src=\"" ++ u ++ "\" alt=\"Observation photo\"/>" ++ "<br/>" ++
      att ++ "</div>").data ++ tail) = u.data :: imgSrcs tail := by
  simp only [String.data_append, List.append_assoc]
  rw [show (['<','d','i','v','>','<','i','m','g',' ','s','r','c','=','\"'] : List Char) =
    ['<','d','i','v','>'] ++ imgPat from by decide]
  rw [List.append_assoc]
  rw [imgSrcs_append_startFree ['<','d','i','v','>'] _ (by decide)]
  rw [imgSrcs_append_pat]
  congr 1
  · rw [List.takeWhile_append_of_pos (fun a ha => by
      exact bne_iff_ne.2 (fun he : a = '\"' => hu2 (he ▸ ha)))]
    simp
  · rw [imgSrcs_append_startFree u.data _
      (startFree_of_not_mem '<' "img src=\"".data u.data hu1)]
    rw [imgSrcs_append_startFree ['\"',' ','a','l','t','=','\"','O','b','s','e','r','v','a',
      't','i','o','n',' ','p','h','o','t','o','\"','/','>'] _ (by decide)]
    rw [imgSrcs_append_startFree ['<','b','r','/','>'] _ (by decide)]
    rw [imgSrcs_append_startFree att.data _
      (startFree_of_not_mem '<' "img src=\"".data att.data hatt)]
    rw [imgSrcs_append_startFree ['<','/','d','i','v','>'] _ (by decide)]

theorem keptUrlsL_cons_none (pd : ObservationPhoto) (rest : List ObservationPhoto)
    (h : pd.photo = none) : keptUrlsL (pd :: rest) = keptUrlsL rest := by
  unfold keptUrlsL
  rw [List.filterMap_cons]
  simp [h]

theorem keptUrlsL_cons_nourl (pd : ObservationPhoto) (rest : List ObservationPhoto)
    (p : Photo) (h : pd.photo = some p) (h2 : p.url = none) :
    keptUrlsL (pd :: rest) = keptUrlsL rest := by
  unfold keptUrlsL
  rw [List.filterMap_cons]
  simp [h, h2]

theorem keptUrlsL_cons_url (pd : ObservationPhoto) (rest : List ObservationPhoto)
    (p : Photo) (u : String) (h : pd.photo = some p) (h2 : p.url = some u) :
    keptUrlsL (pd :: rest) =
      if u = "" then keptUrlsL rest else photoUrlRewrite u :: keptUrlsL rest := by
  unfold keptUrlsL
  rw [List.filterMap_cons]
  by_cases hu : u = "" <;> simp [h, h2, hu]

theorem imgSrcs_photosHtml (ps : List ObservationPhoto) (tail : List Char)
    (hb : ∀ pd ∈ ps, benignPhoto pd = true) :
    imgSrcs ((photosHtml ps).data ++ tail) =
      (keptUrlsL ps).map String.data ++ imgSrcs tail := by
  induction ps with
  | nil => simp [photosHtml, keptUrlsL]
  | cons pd rest ih =>
    have hbd := hb pd (List.mem_cons_self pd rest)
    have hbr : ∀ x ∈ rest, benignPhoto x = true :=
      fun x hx => hb x (List.mem_cons_of_mem pd hx)
    rw [photosHtml]
    cases hph : pd.photo with
    | none =>
      rw [keptUrlsL_cons_none pd rest hph]
      simp only [hph, String.data_append]
      simpa using ih hbr
    | some p =>
      cases hu : p.url with
      | none =>
        rw [keptUrlsL_cons_nourl pd rest p hph hu]
        simp only [hph, hu, String.data_append]
        simpa using ih hbr
      | some u =>
        rw [keptUrlsL_cons_url pd rest p u hph hu]
        by_cases hue : u = ""
        · rw [if_pos hue]
          simp only [hph, hu, hue, if_pos rfl, String.data_append]
          simpa using ih hbr
        · rw [if_neg hue]
          simp only [hph, hu, if_neg hue]
          simp only [benignPhoto, hph, hu] at hbd
          rw [Bool.and_eq_true, Bool.and_eq_true] at hbd
          obtain ⟨⟨hc1, hc2⟩, hc3⟩ := hbd
          rw [Bool.not_eq_true'] at hc1 hc2 hc3
          have h1 := not_mem_of_contains_false hc1
          have h2 := not_mem_of_contains_false hc2
          have h3 := not_mem_of_contains_false hc3
          rw [String.data_append, List.append_assoc]
          rw [imgSrcs_photoDiv (photoUrlRewrite u) (p.attribution.getD "") _ h1 h2 h3]
          rw [ih hbr]
          simp

theorem enclosureLinksL_eq (ps : List ObservationPhoto) :
    ps.filterMap (fun pd =>
      match pd.photo with
      | none => none
      | some p =>
        match p.url with
        | none => none
        | some u =>
          if u = "" then none
          else some (XElem.mk "link"
            [("rel", "enclosure"), ("href", photoUrlRewrite u), ("type", "image/jpeg")]
            none [])) =
      (keptUrlsL ps).map (fun u =>
        XElem.mk "link" [("rel", "enclosure"), ("href", u), ("type", "image/jpeg")]
          none []) := by
  induction ps with
  | nil => simp [keptUrlsL]
  | cons pd rest ih =>
    rw [List.filterMap_cons]
    cases hph : pd.photo with
    | none =>
      rw [keptUrlsL_cons_none pd rest hph]
      simp only [hph]
      exact ih
    | some p =>
      cases hu : p.url with
      | none =>
        rw [keptUrlsL_cons_nourl pd rest p hph hu]
        simp only [hph, hu]
        exact ih
      | some u =>
        rw [keptUrlsL_cons_url pd rest p u hph hu]
        by_cases hue : u = ""
        · rw [if_pos hue]
          simp only [hph, hu, hue, if_pos rfl]
          exact ih
        · rw [if_neg hue]
          simp only [hph, hu, if_neg hue]
          simp [ih]

theorem enclosureLinks_eq_map (item : Observation) :
    enclosureLinks item =
      (keptUrls item).map (fun u =>
        XElem.mk "link" [("rel", "enclosure"), ("href", u), ("type", "image/jpeg")]
          none []) := by
  unfold enclosureLinks keptUrls
  cases hop : item.observation_photos with
  | none => simp
  | some ps =>
    simp only
    by_cases hps : ps.isEmpty
    · have hnil : ps = [] := List.isEmpty_iff.1 hps
      subst hnil
      simp [keptUrlsL]
    · rw [if_neg hps]
      exact enclosureLinksL_eq ps

theorem startFree_coordsHtml (item : Observation)
    (hc : (match item.geojson with
           | none => true
           | some gj =>
             match gj.coordinates with
             | none => true
             | some co =>
               !(co.fst.data.contains '<') && !(co.snd.data.contains '<')) = true) :
    startFree imgPat (coordsHtml item).data = true := by
  unfold coordsHtml
  cases hg : item.geojson with
  | none => simp only [hg]; decide
  | some gj =>
    cases hco : gj.coordinates with
    | none => simp only [hg, hco]; decide
    | some co =>
      simp only [hg, hco] at hc
      rw [Bool.and_eq_true] at hc
      obtain ⟨h1, h2⟩ := hc
      rw [Bool.not_eq_true'] at h1 h2
      have hf := startFree_of_not_mem '<' "img src=\"".data co.fst.data
        (not_mem_of_contains_false h1)
      have hs := startFree_of_not_mem '<' "img src=\"".data co.snd.data
        (not_mem_of_contains_false h2)
      simp only [hg, hco, String.data_append]
      apply startFree_append
      · apply startFree_append
        · apply startFree_append
          · apply startFree_append
            · apply startFree_append
              · apply startFree_append
                · apply startFree_append
                  · apply startFree_append
                    · decide
                    · exact hs
                  · decide
                · exact hf
              · decide
            · exact hs
          · decide
        · exact hf
      · decide

theorem imgSrcs_html_content (item : Observation) (hb : benign item = true) :
    imgSrcs (html_content item).data = (keptUrls item).map String.data := by
  unfold benign at hb
  rw [Bool.and_eq_true, Bool.and_eq_true] at hb
  obtain ⟨⟨hplace, hcoords⟩, hphotos⟩ := hb
  rw [Bool.not_eq_true'] at hplace
  have hsfloc := startFree_of_not_mem '<' "img src=\"".data
    (item.place_guess.getD "Unknown").data (not_mem_of_contains_false hplace)
  have hsfcoords := startFree_coordsHtml item hcoords
  unfold html_content
  simp only [String.data_append, List.append_assoc]
  rw [imgSrcs_append_startFree
    ['<','d','i','v','>','<','p','>','L','o','c','a','t','i','o','n',':',' '] _ (by decide)]
  rw [imgSrcs_append_startFree (item.place_guess.getD "Unknown").data _ hsfloc]
  rw [imgSrcs_append_startFree ['<','/','p','>'] _ (by decide)]
  rw [imgSrcs_append_startFree (coordsHtml item).data _ hsfcoords]
  cases hop : item.observation_photos with
  | none =>
    unfold keptUrls
    simp only [hop]
    decide
  | some ps =>
    by_cases hps : ps.isEmpty
    · have hnil : ps = [] := List.isEmpty_iff.1 hps
      subst hnil
      unfold keptUrls
      simp only [hop, List.isEmpty_nil, if_pos]
      simp [keptUrlsL]
      decide
    · unfold keptUrls
      simp only [hop, if_neg hps]
      have hall : ∀ pd ∈ ps, benignPhoto pd = true := by
        rw [hop] at hphotos
        simp only [Option.getD_some] at hphotos
        exact List.all_eq_true.1 hphotos
      simp only [String.data_append, List.append_assoc]
      rw [imgSrcs_append_startFree
        ['<','p','>','P','h','o','t','o','s',':','<','/','p','>'] _ (by decide)]
      rw [imgSrcs_photosHtml ps ['<','/','d','i','v','>'] hall]
      rw [show imgSrcs ['<','/','d','i','v','>'] = [] from by decide, List.append_nil]

/-- **C5, counterexample to the claim as stated.**  A photo record whose
`photo.url` is *present* but empty yields *no* enclosure link: the program
tests truthiness (`if photo_data.get("photo") and
photo_data.get("photo").get("url")`), and the empty string is falsy in
Python.  `emptyUrlObs` has exactly one photo record with a present
`photo.url`, yet its entry carries zero enclosure links. -/
theorem claim_C5_counterexample :
    (enclosureLinks emptyUrlObs).length = 0 ∧
    (emptyUrlObs.observation_photos.getD []).countP
      (fun pd =>
        match pd.photo with
        | some p => p.url.isSome
        | none => false) = 1 := by
  constructor
  · rfl
  · rfl

/-- **C5 (amended: "present" must be read as "present and non-empty").**
For every record whose interpolated strings do not themselves contain the
HTML metacharacters (`benign`): the enclosure links are appended as a group
after the content element (and before the alternate link); they are exactly
one `rel="enclosure"`, `type="image/jpeg"` link per photo kept by the
truthiness tests (`photo` truthy and `photo.url` present and non-empty), in
`observation_photos` order, with `href` the `square.jpeg`→`large.jpeg`
rewrite of the photo URL; and the `src` URLs of the `<img>` tags embedded in
the content HTML equal those `href`s element for element - even though the
two are built by two independent passes over the photo list. -/
theorem claim_C5_enclosures (item : Observation) (hb : benign item = true) :
    (entryElem item).children =
      [XElem.mk "id" [] (some (inaturalist_url item)) [],
       XElem.mk "title" []
         (some ("Brown Pelican at " ++ item.place_guess.getD "Unknown location")) [],
       XElem.mk "updated" [] item.time_observed_at [],
       XElem.mk "content" [("type", "html")] (some (html_content item)) []]
      ++ enclosureLinks item
      ++ [XElem.mk "link" [("rel", "alternate"), ("href", inaturalist_url item)] none []]
      ++ (match item.place_guess with
          | none => []
          | some pg =>
            if pg = "" then []
            else [XElem.mk "category" [("term", pyQuote pg), ("label", pg)] none []]) ∧
    enclosureLinks item =
      (keptUrls item).map (fun u =>
        XElem.mk "link" [("rel", "enclosure"), ("href", u), ("type", "image/jpeg")]
          none []) ∧
    imgSrcs (html_content item).data = (keptUrls item).map String.data :=
  ⟨rfl, enclosureLinks_eq_map item, imgSrcs_html_content item hb⟩

/-- Witness for C5 at the Scenario-4-style record `sampleObs` (one photo
whose URL ends in `square.jpeg`). -/
theorem claim_C5_witness :
    benign sampleObs = true ∧
    ((entryElem sampleObs).children =
      [XElem.mk "id" [] (some (inaturalist_url sampleObs)) [],
       XElem.mk "title" []
         (some ("Brown Pelican at " ++ sampleObs.place_guess.getD "Unknown location")) [],
       XElem.mk "updated" [] sampleObs.time_observed_at [],
       XElem.mk "content" [("type", "html")] (some (html_content sampleObs)) []]
      ++ enclosureLinks sampleObs
      ++ [XElem.mk "link" [("rel", "alternate"), ("href", inaturalist_url sampleObs)]
           none []]
      ++ (match sampleObs.place_guess with
          | none => []
          | some pg =>
            if pg = "" then []
            else [XElem.mk "category" [("term", pyQuote pg), ("label", pg)] none []]) ∧
    enclosureLinks sampleObs =
      (keptUrls sampleObs).map (fun u =>
        XElem.mk "link" [("rel", "enclosure"), ("href", u), ("type", "image/jpeg")]
          none []) ∧
    imgSrcs (html_content sampleObs).data = (keptUrls sampleObs).map String.data) :=
  ⟨by decide, claim_C5_enclosures sampleObs (by decide)⟩

/-! ### The declaration substitution (`format_xml`) -/

theorem containsSub_ltqm_cons_cons (c d : Char) (s : List Char) :
    containsSub ltqm (c :: d :: s) =
      ((('<' == c) && ('?' == d)) || containsSub ltqm (d :: s)) := by
  show (List.isPrefixOf ['<', '?'] (c :: d :: s) || containsSub ltqm (d :: s)) = _
  simp [List.isPrefixOf, Bool.and_assoc]

theorem containsSub_ltqm_append : ∀ (x y : List Char),
    containsSub ltqm x = false → containsSub ltqm y = false →
    x.getLast? ≠ some '<' → containsSub ltqm (x ++ y) = false
  | [], y, _, hy, _ => by simpa using hy
  | [c], y, hx, hy, hlast => by
    cases y with
    | nil => simpa using hx
    | cons d y' =>
      rw [show ([c] ++ d :: y' : List Char) = c :: d :: y' from rfl,
        containsSub_ltqm_cons_cons]
      have hc : ('<' == c) = false := by
        apply beq_eq_false_iff_ne.2
        intro he
        exact hlast (by simp [← he])
      rw [hc, Bool.false_and, Bool.false_or]
      exact hy
  | c :: d :: x', y, hx, hy, hlast => by
    rw [show ((c :: d :: x') ++ y : List Char) = c :: d :: (x' ++ y) from rfl,
      containsSub_ltqm_cons_cons]
    rw [containsSub_ltqm_cons_cons] at hx
    obtain ⟨hx12, hx2⟩ := Bool.or_eq_false_iff.1 hx
    rw [List.getLast?_cons_cons] at hlast
    rw [hx12, Bool.false_or]
    exact containsSub_ltqm_append (d :: x') y hx2 hy hlast

theorem containsSub_ltqm_of_no_lt {s : List Char} (h : '<' ∉ s) :
    containsSub ltqm s = false := by
  rw [Bool.eq_false_iff]
  intro hcon
  exact h (subset_of_containsSub hcon '<' (by simp [ltqm]))

theorem declFree_of_no_lt {s : String} (h : '<' ∉ s.data) : declFree s = true := by
  unfold declFree
  rw [containsSub_ltqm_of_no_lt h]
  have h2 : (s.data.getLast? == some '<') = false := by
    rw [Bool.eq_false_iff]
    intro hcon
    exact h (List.mem_of_getLast?_eq_some (beq_iff_eq.1 hcon))
  rw [h2]
  rfl

theorem declFree_append (a b : String) (ha : declFree a = true)
    (hb : declFree b = true) : declFree (a ++ b) = true := by
  unfold declFree at ha hb ⊢
  rw [Bool.and_eq_true] at ha hb
  obtain ⟨ha1, ha2⟩ := ha
  obtain ⟨hb1, hb2⟩ := hb
  rw [Bool.not_eq_true'] at ha1 ha2 hb1 hb2
  have ha2' : a.data.getLast? ≠ some '<' := by
    intro he
    rw [he] at ha2
    simp at ha2
  have hb2' : b.data.getLast? ≠ some '<' := by
    intro he
    rw [he] at hb2
    simp at hb2
  rw [Bool.and_eq_true]
  constructor
  · rw [Bool.not_eq_true', String.data_append]
    exact containsSub_ltqm_append a.data b.data ha1 hb1 ha2'
  · rw [Bool.not_eq_true', String.data_append, List.getLast?_append]
    cases hlb : b.data.getLast? with
    | none =>
      simp only [Option.or]
      exact beq_eq_false_iff_ne.2 ha2'
    | some x =>
      simp only [Option.or]
      exact beq_eq_false_iff_ne.2 (fun hcon => hb2' (by rw [hlb]; exact hcon))

theorem nameOk_parts {t : String} (h : nameOk t = true) :
    t.data ≠ [] ∧ '<' ∉ t.data ∧ '?' ∉ t.data := by
  unfold nameOk at h
  rw [Bool.and_eq_true, Bool.and_eq_true] at h
  obtain ⟨⟨h1, h2⟩, h3⟩ := h
  rw [Bool.not_eq_true'] at h1 h2 h3
  exact ⟨fun he => by simp [he] at h1, not_mem_of_contains_false h2,
    not_mem_of_contains_false h3⟩

theorem nameOk_declFree {t : String} (h : nameOk t = true) : declFree t = true :=
  declFree_of_no_lt (nameOk_parts h).2.1

theorem declFree_lt_tag {t : String} (h : nameOk t = true) :
    declFree ("<" ++ t) = true := by
  obtain ⟨hne, hlt, hqm⟩ := nameOk_parts h
  unfold declFree
  rw [show ("<" ++ t).data = '<' :: t.data from by simp]
  cases ht : t.data with
  | nil => exact absurd ht hne
  | cons c rest =>
    rw [containsSub_ltqm_cons_cons]
    have hq : ('?' == c) = false := by
      apply beq_eq_false_iff_ne.2
      intro he
      exact hqm (by rw [ht, ← he]; exact List.mem_cons_self '?' rest)
    rw [List.getLast?_cons_cons]
    have hcon : containsSub ltqm (c :: rest) = false := by
      rw [← ht]
      exact containsSub_ltqm_of_no_lt hlt
    have hlast : ((c :: rest).getLast? == some '<') = false := by
      apply beq_eq_false_iff_ne.2
      intro he
      exact hlt (by rw [ht]; exact List.mem_of_getLast?_eq_some he)
    rw [hq, hcon, hlast]
    rfl

theorem declFree_lt_group (t rest : String) (h : nameOk t = true)
    (hr : declFree rest = true) : declFree ("<" ++ (t ++ rest)) = true := by
  rw [← String.append_assoc]
  exact declFree_append _ _ (declFree_lt_tag h) hr

theorem no_lt_escapeData (v : String) : '<' ∉ (escapeData v).data := by
  unfold escapeData
  intro hm
  rcases mem_pyReplaceL ">".data "&gt;".data (by decide) _ '<' hm with h | h
  · exact absurd h (by decide)
  rcases mem_pyReplaceL "\"".data "&quot;".data (by decide) _ '<' h with h2 | h2
  · exact absurd h2 (by decide)
  exact single_char_removed '<' "&lt;".data (by decide) _ h2

theorem escapeData_declFree (v : String) : declFree (escapeData v) = true :=
  declFree_of_no_lt (no_lt_escapeData v)

theorem attrsStr_declFree : ∀ (attrs : List (String × String)),
    (∀ pr ∈ attrs, nameOk pr.fst = true) → declFree (attrsStr attrs) = true
  | [], _ => by decide
  | pr :: rest, h => by
    rw [attrsStr]
    exact declFree_append (" " ++ pr.fst ++ "=\"" ++ escapeData pr.snd ++ "\"")
      (attrsStr rest)
      (declFree_append (" " ++ pr.fst ++ "=\"" ++ escapeData pr.snd) "\""
        (declFree_append (" " ++ pr.fst ++ "=\"") (escapeData pr.snd)
          (declFree_append (" " ++ pr.fst) "=\""
            (declFree_append " " pr.fst (by decide)
              (nameOk_declFree (h pr (List.mem_cons_self pr rest))))
            (by decide))
          (escapeData_declFree pr.snd))
        (by decide))
      (attrsStr_declFree rest (fun x hx => h x (List.mem_cons_of_mem pr hx)))

theorem declFree_selfclose (ind tag A : String) (hind : declFree ind = true)
    (htag : nameOk tag = true) (hA : declFree A = true) :
    declFree (ind ++ "<" ++ tag ++ A ++ "/>") = true := by
  rw [show ind ++ "<" ++ tag ++ A ++ "/>" = ind ++ ("<" ++ (tag ++ (A ++ "/>"))) from by
    simp [String.append_assoc]]
  exact declFree_append _ _ hind
    (declFree_lt_group tag (A ++ "/>") htag (declFree_append _ _ hA (by decide)))

theorem declFree_open_tag (ind tag A : String) (hind : declFree ind = true)
    (htag : nameOk tag = true) (hA : declFree A = true) :
    declFree (ind ++ "<" ++ tag ++ A ++ ">") = true := by
  rw [show ind ++ "<" ++ tag ++ A ++ ">" = ind ++ ("<" ++ (tag ++ (A ++ ">"))) from by
    simp [String.append_assoc]]
  exact declFree_append _ _ hind
    (declFree_lt_group tag (A ++ ">") htag (declFree_append _ _ hA (by decide)))

theorem declFree_close (ind tag : String) (hind : declFree ind = true)
    (htag : nameOk tag = true) : declFree (ind ++ "</" ++ tag ++ ">") = true := by
  rw [show ind ++ "</" ++ tag ++ ">" = ind ++ ("</" ++ (tag ++ ">")) from by
    simp [String.append_assoc]]
  exact declFree_append _ _ hind
    (declFree_append _ _ (by decide)
      (declFree_append _ _ (nameOk_declFree htag) (by decide)))

theorem declFree_inline (ind tag A t : String) (hind : declFree ind = true)
    (htag : nameOk tag = true) (hA : declFree A = true) :
    declFree (ind ++ "<" ++ tag ++ A ++ ">" ++ escapeData t ++ "</" ++ tag ++ ">") =
      true := by
  rw [show ind ++ "<" ++ tag ++ A ++ ">" ++ escapeData t ++ "</" ++ tag ++ ">" =
      (ind ++ "<" ++ tag ++ A ++ ">") ++ (escapeData t ++ ("</" ++ (tag ++ ">"))) from by
    simp [String.append_assoc]]
  exact declFree_append _ _ (declFree_open_tag ind tag A hind htag hA)
    (declFree_append _ _ (escapeData_declFree t)
      (declFree_append _ _ (by decide)
        (declFree_append _ _ (nameOk_declFree htag) (by decide))))

mutual
theorem linesOf_declFree : ∀ (e : XElem) (ind : String), elemOk e = true →
    declFree ind = true → ∀ l ∈ linesOf e ind, declFree l = true
  | XElem.mk tag attrs text children, ind, he, hind => by
    rw [elemOk] at he
    rw [Bool.and_eq_true, Bool.and_eq_true] at he
    obtain ⟨⟨htag, hattrs⟩, hch⟩ := he
    have hattrs' : ∀ pr ∈ attrs, nameOk pr.fst = true := fun pr hpr =>
      List.all_eq_true.1 hattrs pr hpr
    have hA := attrsStr_declFree attrs hattrs'
    intro l hl
    cases children with
    | nil =>
      cases text with
      | some t =>
        by_cases ht : t = ""
        · simp only [linesOf, ht, ite_true, List.mem_singleton] at hl
          subst hl
          exact declFree_selfclose ind tag (attrsStr attrs) hind htag hA
        · simp only [linesOf, if_neg ht, List.mem_singleton] at hl
          subst hl
          exact declFree_inline ind tag (attrsStr attrs) t hind htag hA
      | none =>
        simp only [linesOf, List.mem_singleton] at hl
        subst hl
        exact declFree_selfclose ind tag (attrsStr attrs) hind htag hA
    | cons c cs =>
      simp only [linesOf, List.mem_append, List.mem_singleton] at hl
      have hind2 : declFree (ind ++ "  ") = true :=
        declFree_append _ _ hind (by decide)
      rcases hl with ((hl | hl) | hl) | hl
      · subst hl
        exact declFree_open_tag ind tag (attrsStr attrs) hind htag hA
      · have : l ∈ (match text with
            | some t => if t = "" then [] else [escapeData (ind ++ "  " ++ t)]
            | none => ([] : List String)) := hl
        cases text with
        | some t =>
          by_cases ht : t = ""
          · simp [ht] at this
          · simp only [if_neg ht, List.mem_singleton] at this
            subst this
            exact escapeData_declFree (ind ++ "  " ++ t)
        | none => simp at this
      · exact linesOfList_declFree (c :: cs) (ind ++ "  ") hch hind2 l hl
      · subst hl
        exact declFree_close ind tag hind htag

theorem linesOfList_declFree : ∀ (es : List XElem) (ind : String), elemsOk es = true →
    declFree ind = true → ∀ l ∈ linesOfList es ind, declFree l = true
  | [], _, _, _ => by
    intro l hl
    simp [linesOfList] at hl
  | e :: es, ind, he, hind => by
    rw [elemsOk, Bool.and_eq_true] at he
    intro l hl
    simp only [linesOfList, List.mem_append] at hl
    rcases hl with hl | hl
    · exact linesOf_declFree e ind he.1 hind l hl
    · exact linesOfList_declFree es ind he.2 hind l hl
end

theorem joinLines_declFree : ∀ (L : List String),
    (∀ l ∈ L, declFree l = true) → declFree (joinLines L) = true
  | [], _ => by decide
  | l :: ls, h => by
    rw [joinLines]
    exact declFree_append (l ++ "\n") (joinLines ls)
      (declFree_append l "\n" (h l (List.mem_cons_self l ls)) (by decide))
      (joinLines_declFree ls (fun x hx => h x (List.mem_cons_of_mem l hx)))

theorem elemsOk_nil : elemsOk [] = true := by rw [elemsOk]

theorem elemsOk_append : ∀ (a b : List XElem),
    elemsOk (a ++ b) = (elemsOk a && elemsOk b)
  | [], b => by
    rw [List.nil_append, elemsOk]
    simp
  | e :: es, b => by
    rw [List.cons_append]
    rw [show elemsOk (e :: (es ++ b)) = (elemOk e && elemsOk (es ++ b)) from by
      rw [elemsOk]]
    rw [show elemsOk (e :: es) = (elemOk e && elemsOk es) from by rw [elemsOk]]
    rw [elemsOk_append es b, Bool.and_assoc]

theorem elemsOk_of_forall : ∀ (l : List XElem),
    (∀ e ∈ l, elemOk e = true) → elemsOk l = true
  | [], _ => elemsOk_nil
  | e :: es, h => by
    rw [show elemsOk (e :: es) = (elemOk e && elemsOk es) from by rw [elemsOk]]
    rw [Bool.and_eq_true]
    exact ⟨h e (List.mem_cons_self e es),
      elemsOk_of_forall es (fun x hx => h x (List.mem_cons_of_mem e hx))⟩

theorem elemOk_leaf (tag : String) (attrs : List (String × String)) (x : Option String)
    (htag : nameOk tag = true) (hattrs : ∀ pr ∈ attrs, nameOk pr.fst = true) :
    elemOk (XElem.mk tag attrs x []) = true := by
  rw [elemOk, Bool.and_eq_true, Bool.and_eq_true]
  exact ⟨⟨htag, List.all_eq_true.2 hattrs⟩, elemsOk_nil⟩

theorem elemOk_entryElem (item : Observation) : elemOk (entryElem item) = true := by
  rw [entryElem, elemOk, Bool.and_eq_true, Bool.and_eq_true]
  refine ⟨⟨by decide, by decide⟩, ?_⟩
  rw [elemsOk_append, elemsOk_append, elemsOk_append, Bool.and_eq_true, Bool.and_eq_true,
    Bool.and_eq_true]
  refine ⟨⟨⟨?_, ?_⟩, ?_⟩, ?_⟩
  · apply elemsOk_of_forall
    intro e he
    simp only [List.mem_cons, List.not_mem_nil, or_false] at he
    rcases he with rfl | rfl | rfl | rfl
    · exact elemOk_leaf _ _ _ (by decide) (fun pr hpr => absurd hpr (List.not_mem_nil pr))
    · exact elemOk_leaf _ _ _ (by decide) (fun pr hpr => absurd hpr (List.not_mem_nil pr))
    · exact elemOk_leaf _ _ _ (by decide) (fun pr hpr => absurd hpr (List.not_mem_nil pr))
    · refine elemOk_leaf _ _ _ (by decide) ?_
      intro pr hpr
      simp only [List.mem_cons, List.not_mem_nil, or_false] at hpr
      subst hpr
      decide
  · apply elemsOk_of_forall
    intro e he
    rcases mem_enclosureLinks he with ⟨u, rfl⟩
    refine elemOk_leaf _ _ _ (by decide) ?_
    intro pr hpr
    simp only [List.mem_cons, List.not_mem_nil, or_false] at hpr
    rcases hpr with rfl | rfl | rfl
    · exact (by decide : nameOk "rel" = true)
    · exact (by decide : nameOk "href" = true)
    · exact (by decide : nameOk "type" = true)
  · apply elemsOk_of_forall
    intro e he
    simp only [List.mem_cons, List.not_mem_nil, or_false] at he
    subst he
    refine elemOk_leaf _ _ _ (by decide) ?_
    intro pr hpr
    simp only [List.mem_cons, List.not_mem_nil, or_false] at hpr
    rcases hpr with rfl | rfl
    · exact (by decide : nameOk "rel" = true)
    · exact (by decide : nameOk "href" = true)
  · cases item.place_guess with
    | none => exact elemsOk_nil
    | some pg =>
      show elemsOk (if pg = "" then []
        else [XElem.mk "category" [("term", pyQuote pg), ("label", pg)] none []]) = true
      by_cases hpg : pg = ""
      · rw [if_pos hpg]
        exact elemsOk_nil
      · rw [if_neg hpg]
        apply elemsOk_of_forall
        intro e he
        simp only [List.mem_cons, List.not_mem_nil, or_false] at he
        subst he
        refine elemOk_leaf _ _ _ (by decide) ?_
        intro pr hpr
        simp only [List.mem_cons, List.not_mem_nil, or_false] at hpr
        rcases hpr with rfl | rfl
        · exact (by decide : nameOk "term" = true)
        · exact (by decide : nameOk "label" = true)

theorem elemOk_feedElem (json_data : Document) (ft fi an fu : String) :
    elemOk (feedElem json_data ft fi an fu) = true := by
  rw [feedElem, elemOk, Bool.and_eq_true, Bool.and_eq_true]
  refine ⟨⟨by decide, by decide⟩, ?_⟩
  rw [elemsOk_append, Bool.and_eq_true]
  constructor
  · apply elemsOk_of_forall
    intro e he
    simp only [List.mem_cons, List.not_mem_nil, or_false] at he
    rcases he with rfl | rfl | rfl | rfl
    · exact elemOk_leaf _ _ _ (by decide) (fun pr hpr => absurd hpr (List.not_mem_nil pr))
    · exact elemOk_leaf _ _ _ (by decide) (fun pr hpr => absurd hpr (List.not_mem_nil pr))
    · exact elemOk_leaf _ _ _ (by decide) (fun pr hpr => absurd hpr (List.not_mem_nil pr))
    · rw [elemOk, Bool.and_eq_true, Bool.and_eq_true]
      refine ⟨⟨by decide, by decide⟩, ?_⟩
      apply elemsOk_of_forall
      intro e he
      simp only [List.mem_cons, List.not_mem_nil, or_false] at he
      subst he
      exact elemOk_leaf _ _ _ (by decide)
        (fun pr hpr => absurd hpr (List.not_mem_nil pr))
  · apply elemsOk_of_forall
    intro e he
    rcases List.mem_map.1 he with ⟨r, _, rfl⟩
    exact elemOk_entryElem r

theorem format_xml_eq (e : XElem) (he : elemOk e = true) :
    format_xml e =
      "<?xml version=\"1.0\" encoding=\"utf-8\"?>" ++ "\n" ++
        joinLines (linesOf e "") := by
  have hbody := joinLines_declFree (linesOf e "") (linesOf_declFree e "" he (by decide))
  unfold declFree at hbody
  rw [Bool.and_eq_true] at hbody
  have hb1 := hbody.1
  rw [Bool.not_eq_true'] at hb1
  have hno : containsSub ("<?xml version=\"1.0\" ?>".data)
      ('\n' :: (joinLines (linesOf e "")).data) = false := by
    rw [Bool.eq_false_iff]
    intro hcon
    have hpre : ltqm <+: "<?xml version=\"1.0\" ?>".data := by decide
    have h2 := containsSub_of_prefix_pat hpre hcon
    have h3 : containsSub ltqm ('\n' :: (joinLines (linesOf e "")).data) = false := by
      show (List.isPrefixOf ['<', '?'] ('\n' :: (joinLines (linesOf e "")).data) ||
        containsSub ltqm (joinLines (linesOf e "")).data) = false
      rw [hb1]
      simp [List.isPrefixOf]
    rw [h3] at h2
    exact Bool.noConfusion h2
  unfold format_xml toprettyxml pyReplace
  show String.mk _ = String.mk ("<?xml version=\"1.0\" encoding=\"utf-8\"?>" ++ "\n" ++
    joinLines (linesOf e "")).data
  apply congrArg String.mk
  rw [String.data_append, String.data_append, String.data_append, String.data_append,
    List.append_assoc, List.append_assoc]
  rw [show ("\n".data : List Char) = ['\n'] from rfl, List.singleton_append]
  rw [pyReplaceL_append_pat _ _ _ (by decide)]
  rw [pyReplaceL_of_not_containsSub hno]

/-- **C9.**  For every input document the output of `json_to_atom` is the
declaration line rewritten - by the literal text substitution in
`format_xml` - to exactly `<?xml version="1.0" encoding="utf-8"?>`,
followed by the serializer's lines, each newline-terminated; and every
element with child elements opens and closes on its own line at the current
indent while its children are written at two more spaces of indent. -/
theorem claim_C9_serialization (json_data : Document) (ft fi an : String)
    (fuOpt : Option String) (now : String) :
    json_to_atom json_data ft fi an fuOpt now =
      "<?xml version=\"1.0\" encoding=\"utf-8\"?>" ++ "\n" ++
        joinLines (linesOf (feedElem json_data ft fi an (fuOpt.getD now)) "") ∧
    (∀ (tag : String) (attrs : List (String × String)) (x : Option String)
        (c : XElem) (cs : List XElem) (ind : String),
      linesOf (XElem.mk tag attrs x (c :: cs)) ind =
        [ind ++ "<" ++ tag ++ attrsStr attrs ++ ">"]
          ++ (match x with
              | some t => if t = "" then [] else [escapeData (ind ++ "  " ++ t)]
              | none => [])
          ++ linesOfList (c :: cs) (ind ++ "  ")
          ++ [ind ++ "</" ++ tag ++ ">"]) := by
  constructor
  · exact format_xml_eq _ (elemOk_feedElem json_data ft fi an (fuOpt.getD now))
  · intro tag attrs x c cs ind
    rw [linesOf.eq_def]
